import Mathlib

/-!
# Verification of the 3-digit lotto analyzer core logic

Shallow embedding of the non-presentational logic of the
`3-digit-lotto-analyzer` application:

* `validateAndParseDraw` and `processCsvText` (`src/components/LottoForm.tsx`),
* the frequency / hot-digit computation of the `App` component's
  `useEffect` and the draw-collection handlers (`App.tsx`),
* `getGeminiPrediction` (`src/services/geminiService.ts`), including the
  code-fence stripping regex and the response validation.

JavaScript strings are modelled as `List Char`, JavaScript numbers as
`Option ℚ` (`none` = `NaN`; infinities are irrelevant to all properties
considered), and the external JS builtins `Number` (string → number
coercion), the network call, and `JSON.parse` are taken as parameters of
the embedded functions.
-/

/-! ## JavaScript character classes and string primitives -/

/-- The whitespace characters of JavaScript `\s` (ASCII part: space, tab,
newline, carriage return, vertical tab, form feed).  Used both by the regex
classes and by `String.prototype.trim`. -/
def wsJs (c : Char) : Bool :=
  c == ' ' || c == '\t' || c == '\n' || c == '\r' || c == Char.ofNat 11 || c == Char.ofNat 12

/-- The JavaScript word characters `\w` = `[A-Za-z0-9_]`. -/
def wordJs (c : Char) : Bool :=
  c.isAlpha || c.isDigit || c == '_'

/-- The character class `[,-\s]` of the splitting regex in
`validateAndParseDraw`: comma, hyphen, or whitespace (inside the class the
hyphen between `,` and `\s` is literal). -/
def sepJs (c : Char) : Bool :=
  c == ',' || c == '-' || wsJs c

/-- `String.prototype.trim`: drop whitespace from both ends. -/
def trimJs (l : List Char) : List Char :=
  ((l.dropWhile wsJs).reverse.dropWhile wsJs).reverse

/-- `String.prototype.split(/[,-\s]+/)`: the pieces of the string between
maximal runs of separator characters.  A separator character whose successor
is also a separator extends the current run (the `+` of the regex); one at a
run's left edge opens a new (possibly empty) piece.  Like the JS builtin
this yields empty pieces at the ends when the input starts or ends with a
separator run. -/
def splitSeps : List Char → List (List Char)
  | [] => [[]]
  | c :: l =>
    let ts := splitSeps l
    if sepJs c then
      match l with
      | [] => [] :: ts
      | d :: _ => if sepJs d then ts else [] :: ts
    else
      match ts with
      | t :: ts' => (c :: t) :: ts'
      | [] => [[c]]

/-- `input.split(/[,-\s]+/).map(s => s.trim()).filter(s => s !== '')`:
the token list computed at the top of `validateAndParseDraw`. -/
def numbersStrOf (input : List Char) : List (List Char) :=
  ((splitSeps input).map trimJs).filter (· ≠ [])

/-! ## The draw parser (`validateAndParseDraw`, `game.id === '3d'` branch) -/

/-- The validation failures of `validateAndParseDraw` (the source returns
descriptive strings; this inductive records which message is produced and
the data interpolated into it). -/
inductive ValidationError where
  /-- "Please enter exactly 3 digits … You entered ⟨n⟩." -/
  | wrongCount (entered : ℕ)
  /-- "All inputs must be numeric digits (0-9)." -/
  | notNumeric
  /-- "Each digit must be an integer between 0 and 9." -/
  | outOfRange
deriving DecidableEq, Repr

deriving instance DecidableEq for Except

/-- `validateAndParseDraw(input, game)` for the shipped `'3d'` game
(`digitCount = 3`, values `0–9`, order significant), from
`src/components/LottoForm.tsx` lines 39–53.  `toNum` models the JavaScript
`Number` coercion on a (trimmed, non-empty) token, `none` standing for
`NaN`. -/
def validateAndParseDraw (toNum : List Char → Option ℚ) (input : List Char) :
    Except ValidationError (List ℚ) :=
  let numbersStr := numbersStrOf input
  if numbersStr.length ≠ 3 then
    .error (.wrongCount numbersStr.length)
  else
    let numbers := numbersStr.map toNum
    if numbers.any (·.isNone) then
      .error .notNumeric
    else
      let vals := numbers.reduceOption
      if vals.any (fun n => n < 0 ∨ 9 < n ∨ ¬ n.den = 1) then
        .error .outOfRange
      else
        .ok vals

/-- A concrete model of `Number` good enough for test inputs: a token that
is a non-empty string of decimal digits denotes its value, anything else
is `NaN`.  Used only to instantiate witness theorems. -/
def toNumDigits (l : List Char) : Option ℚ :=
  if l ≠ [] ∧ l.all Char.isDigit then
    some ((l.foldl (fun acc c => acc * 10 + (c.toNat - 48)) 0 : ℕ) : ℚ)
  else none

/-! ## Batch parsing (`processCsvText`, `handleFileUpload`) -/

/-- `text.split(/\r\n|\n/)`: split on line breaks.  A `\r` immediately
followed by `\n` is one break (the alternation prefers `\r\n`); a lone `\r`
is ordinary content. -/
def splitLinesJs : List Char → List (List Char)
  | [] => [[]]
  | '\r' :: '\n' :: rest => [] :: splitLinesJs rest
  | '\n' :: rest => [] :: splitLinesJs rest
  | c :: rest =>
    match splitLinesJs rest with
    | t :: ts => (c :: t) :: ts
    | [] => [[c]]

/-- `processCsvText(text, game)` from `src/components/LottoForm.tsx` lines
83–97: split into lines, trim, drop blank lines, run `validateAndParseDraw`
on every remaining line, pushing successes onto `parsedDraws` and failures
(with the 1-based index of the line among the non-blank lines, as in the
rendered `Line ${index + 1}` message) onto `errors`. -/
def processCsvText (toNum : List Char → Option ℚ) (text : List Char) :
    List (List ℚ) × List (ℕ × List Char × ValidationError) :=
  let lines := ((splitLinesJs text).map trimJs).filter (· ≠ [])
  lines.enum.foldl
    (fun acc p =>
      match validateAndParseDraw toNum p.2 with
      | .error e => (acc.1, acc.2 ++ [(p.1 + 1, p.2, e)])
      | .ok draw => (acc.1 ++ [draw], acc.2))
    ([], [])

/-- The error rendering of `handleFileUpload` (line 120): the first five
errors are shown, and when more than five exist a tally
`...and (n − 5) more errors.` is appended. -/
def csvErrorReport {α : Type} (errors : List α) : List α × Option ℕ :=
  (errors.take 5, if 5 < errors.length then some (errors.length - 5) else none)

/-! ## Frequency analysis and hot digits (`App` frequency `useEffect`) -/

/-- The entry type `FrequencyData` of `types.ts`. -/
structure FrequencyData where
  number : ℕ
  count : ℕ
  percentage : ℚ
deriving DecidableEq, Repr

/-- The order imposed by the comparator
`(a, b) => b.count - a.count || a.number - b.number` (line 146): count
descending, ties by value ascending. -/
def freqOrder (a b : FrequencyData) : Prop :=
  b.count < a.count ∨ (a.count = b.count ∧ a.number ≤ b.number)

instance : DecidableRel freqOrder := fun a b => by
  unfold freqOrder; infer_instance

instance : IsTotal FrequencyData freqOrder where
  total a b := by unfold freqOrder; omega

instance : IsTrans FrequencyData freqOrder where
  trans a b c hab hbc := by unfold freqOrder at *; omega

/-- The body of the frequency `useEffect` (`App.tsx` lines 130–147) for a
non-empty draw list: tally every digit of every draw (`overallCounts` /
`totalDigitsAnalyzed`), turn the tally into `FrequencyData` entries
(`Object.entries` enumerates the integer-like keys in ascending numeric
order), and sort with the count-desc / value-asc comparator.  The per-value
tally of the source's counting pass is `flat.count v`. -/
def computeFrequencyData (recentDraws : List (List ℕ)) : List FrequencyData :=
  let flat := recentDraws.flatten
  let totalDigitsAnalyzed := flat.length
  let keys := flat.dedup.insertionSort (· ≤ ·)
  (keys.map fun v =>
      { number := v
        count := flat.count v
        percentage :=
          if 0 < totalDigitsAnalyzed then
            ((flat.count v : ℚ) / (totalDigitsAnalyzed : ℚ)) * 100
          else 0 }).insertionSort freqOrder

/-- The whole frequency `useEffect` (lines 123–150): an empty draw list
resets both results to empty; otherwise `frequencyData` is computed as
above and the hot-digits prediction is
`newFrequencyData.slice(0, numbersToPick).map(fd => fd.number).sort((a,b) => a-b)`. -/
def analyzeDraws (recentDraws : List (List ℕ)) (numbersToPick : ℕ) :
    List FrequencyData × List ℕ :=
  if recentDraws.isEmpty then ([], [])
  else
    let fd := computeFrequencyData recentDraws
    (fd, ((fd.take numbersToPick).map (·.number)).insertionSort (· ≤ ·))

/-! ## Draw collection handlers (`App.tsx`) -/

/-- `handleAddMultipleDraws` (lines 104–107):
`setRecentDraws(prevDraws => [...draws.reverse(), ...prevDraws])`. -/
def handleAddMultipleDraws (draws prevDraws : List (List ℕ)) : List (List ℕ) :=
  draws.reverse ++ prevDraws

/-- `handleRemoveDraw` (lines 109–111):
`prevDraws.filter((_, index) => index !== indexToRemove)`.  The index is any
JS number; positions are naturals. -/
def handleRemoveDraw (indexToRemove : ℤ) (prevDraws : List (List ℕ)) : List (List ℕ) :=
  (prevDraws.enum.filter fun p => (p.1 : ℤ) ≠ indexToRemove).map (·.2)

/-! ## The Gemini service (`src/services/geminiService.ts`) -/

/-- A parsed JSON value, as far as the response validation inspects one:
`typeof v === 'number'` (with its numeric value), or something else. -/
inductive JsVal where
  | num (q : ℚ)
  | str (s : List Char)
  | bool (b : Bool)
  | null
  | other
deriving DecidableEq, Repr

/-- The game configuration record (`types.ts` / `constants.ts`). -/
structure LottoGame where
  id : String
  name : String
  maxNumber : ℚ
  numbersToPick : ℕ
  digitMinNumber : Option ℚ := none
  isOrderSignificant : Option Bool := none
deriving DecidableEq

/-- The single shipped game (`constants.ts`): 3-Digit Lotto, 3 digits,
each 0–9, order significant. -/
def game3d : LottoGame :=
  { id := "3d", name := "3 Digit Lotto (Swertres)", maxNumber := 9,
    numbersToPick := 3, digitMinNumber := some 0, isOrderSignificant := some true }

/-- The failures of `getGeminiPrediction` (thrown as `Error`s in the
source; the constructors record which message is produced and the data
interpolated into it). -/
inductive PredError where
  /-- "Gemini AI client is not initialized. API_KEY might be missing." -/
  | serviceUnavailable
  /-- JSON.parse failure or "Invalid JSON structure from AI. …" -/
  | malformedResponse
  /-- "AI predicted ⟨got⟩ digits/numbers, but ⟨expected⟩ were expected …" -/
  | wrongLength (got expected : ℕ)
  /-- "AI predicted an invalid digit: '⟨v⟩' at position ⟨pos⟩. …" (3d branch) -/
  | invalidValue (v : JsVal) (position : ℕ)
  /-- "AI predicted an invalid number: ⟨v⟩ for game range …" (other branch) -/
  | invalidNumber (v : JsVal)
  /-- "… Expected ⟨n⟩ unique numbers, but got ⟨got⟩ after filtering …" -/
  | uniqueCountMismatch (got : ℕ)
deriving DecidableEq, Repr

/-- `typeof num !== 'number' || num < 0 || num > 9 || !Number.isInteger(num)`
(line 94), negated: a JSON value that is an integral number within 0–9. -/
def isValid3dDigit : JsVal → Bool
  | .num q => decide (0 ≤ q) && decide (q ≤ 9) && (q.den == 1)
  | _ => false

/-- The `forEach` of lines 93–97: throw on the first invalid digit, naming
the value and its 1-based position. -/
def check3dDigits (i : ℕ) : List JsVal → Option PredError
  | [] => none
  | v :: rest =>
    if isValid3dDigit v then check3dDigits (i + 1) rest
    else some (.invalidValue v (i + 1))

/-- Element check of the non-'3d' branch (lines 102–106):
`typeof num !== 'number' || num < (digitMinNumber ?? 1) || num > maxNumber
|| !Number.isInteger(num)`, throwing without position information. -/
def checkOtherNums (game : LottoGame) : List JsVal → Option PredError
  | [] => none
  | v :: rest =>
    match v with
    | .num q =>
      if q < game.digitMinNumber.getD 1 ∨ game.maxNumber < q ∨ q.den ≠ 1 then
        some (.invalidNumber v)
      else checkOtherNums game rest
    | _ => some (.invalidNumber v)

/-- Numeric key used by the non-'3d' branch's `sort((a, b) => a - b)`;
every element there has already been checked to be a number. -/
def jsValNum : JsVal → ℚ
  | .num q => q
  | _ => 0

/-- Lines 85–113 of `getGeminiPrediction`: the structural check of the
parsed response (`!predictedNumbers || !analysisSummary ||
!Array.isArray(...)`; an array is always truthy and an empty string is
falsy), then the per-game validation.  For `'3d'`: length must be 3 and
every entry an integral number in 0–9.  Otherwise: length must equal
`numbersToPick`, entries in range, and the deduplicated ascending-sorted
values (`Array.from(new Set(...)).sort((a,b) => a-b)`) must still number
`numbersToPick`, replacing `predictedNumbers`. -/
def validateGeminiResponse (game : LottoGame) (predictedNumbers : List JsVal)
    (analysisSummary : List Char) : Except PredError (List JsVal × List Char) :=
  if analysisSummary = [] then .error .malformedResponse
  else if game.id = "3d" then
    if predictedNumbers.length ≠ 3 then .error (.wrongLength predictedNumbers.length 3)
    else
      match check3dDigits 0 predictedNumbers with
      | some e => .error e
      | none => .ok (predictedNumbers, analysisSummary)
  else
    if predictedNumbers.length ≠ game.numbersToPick then
      .error (.wrongLength predictedNumbers.length game.numbersToPick)
    else
      match checkOtherNums game predictedNumbers with
      | some e => .error e
      | none =>
        let uniqueSortedNumbers :=
          predictedNumbers.dedup.insertionSort fun a b => jsValNum a ≤ jsValNum b
        if uniqueSortedNumbers.length ≠ game.numbersToPick then
          .error (.uniqueCountMismatch uniqueSortedNumbers.length)
        else .ok (uniqueSortedNumbers, analysisSummary)

/-! ### The code-fence stripping regex

`/^```(\w*)?\s*\n?(.*?)\n?\s*```$/s` (line 77), matched against the trimmed
response text; when it matches with a non-empty group 2 (`match && match[2]`,
an empty string being falsy), the group replaces the text (trimmed again).
The regex is embedded by its backtracking semantics: greedy pieces try the
longest extent first and give characters back on failure, the lazy group
tries the shortest extent first, and `.` matches every character (`s` flag).
-/

/-- Greedy `p*` followed by the continuation `k`: consume the longest
possible prefix of `p`-characters, backtracking one character at a time
when the continuation fails. -/
def greedyStar (p : Char → Bool) (k : List Char → Option (List Char)) :
    List Char → Option (List Char)
  | [] => k []
  | c :: rest =>
    if p c then
      match greedyStar p k rest with
      | some r => some r
      | none => k (c :: rest)
    else k (c :: rest)

/-- Greedy `c?` followed by the continuation `k`. -/
def optChar (c : Char) (k : List Char → Option (List Char)) :
    List Char → Option (List Char)
  | [] => k []
  | d :: rest =>
    if d = c then
      match k rest with
      | some r => some r
      | none => k (d :: rest)
    else k (d :: rest)

/-- Whether `\n?\s*```$` matches the (entire) remainder: it ends in three
backticks, everything before them being whitespace (any all-whitespace
string decomposes as `\n?\s*`). -/
def fenceTail (r : List Char) : Bool :=
  decide (3 ≤ r.length) && (r.drop (r.length - 3) == ['`', '`', '`'])
    && (r.take (r.length - 3)).all wsJs

/-- The lazy group `(.*?)` followed by `\n?\s*```$`: the shortest prefix
whose remainder matches the tail, returned as the group's capture. -/
def lazyGroup : List Char → Option (List Char)
  | [] => if fenceTail [] then some [] else none
  | c :: rest =>
    if fenceTail (c :: rest) then some []
    else (lazyGroup rest).map (c :: ·)

/-- The anchored match of the whole fence regex, returning capture group 2
on success.  `(\w*)?` behaves exactly like `\w*` (the optional group merely
retries the empty match). -/
def fenceRegexMatch : List Char → Option (List Char)
  | '`' :: '`' :: '`' :: u => greedyStar wordJs (greedyStar wsJs (optChar '\n' lazyGroup)) u
  | _ => none

/-- Lines 76–81: trim the response text, and if the fence regex matches
with a truthy group 2, replace the text by the trimmed group. -/
def normalizeResponse (text : List Char) : List Char :=
  let jsonStr := trimJs text
  match fenceRegexMatch jsonStr with
  | some g => if g ≠ [] then trimJs g else jsonStr
  | none => jsonStr

/-! ### The service entry point -/

/-- The `GoogleGenAI` client object; `const ai = API_KEY ? new GoogleGenAI({apiKey: API_KEY}) : null`
(line 11).  An absent or empty (falsy) key leaves the service disabled. -/
structure GenClient where
  apiKey : List Char

/-- Construction of the module-level `ai` value from the environment
credential. -/
def mkGenAI (apiKey : Option (List Char)) : Option GenClient :=
  match apiKey with
  | some k => if k ≠ [] then some ⟨k⟩ else none
  | none => none

/-- `recentDrawsChronological.map(draw => draw.join('-')).join('; ')`
(line 22). -/
def recentResultsString (draws : List (List ℕ)) : List Char :=
  ((draws.map fun d =>
      ((d.map fun n => (toString n).toList).intersperse "-".toList).flatten).intersperse
    "; ".toList).flatten

/-- The prompt template (lines 26–64).  The instructional prose is elided
to a fixed marker per branch; the data spliced into the template — the
chronological results string — is kept faithfully.  No claim depends on
the prose. -/
def promptFor (game : LottoGame) (recentDrawsChronological : List (List ℕ)) : List Char :=
  if game.id = "3d" then
    "3d-swertres-prompt:".toList ++ recentResultsString recentDrawsChronological
  else
    "generic-lotto-prompt:".toList ++ recentResultsString recentDrawsChronological

/-- `getGeminiPrediction(game, recentDrawsChronological)`.  The two
external effects are parameters: `generateContent` is the LLM endpoint
(prompt text to response text) and `parseJSON` is `JSON.parse` plus field
extraction (`none` models both a parse `SyntaxError` and a missing /
non-array field, each of which the source turns into a descriptive
error). -/
def getGeminiPrediction (ai : Option GenClient) (game : LottoGame)
    (recentDrawsChronological : List (List ℕ))
    (generateContent : List Char → List Char)
    (parseJSON : List Char → Option (List JsVal × List Char)) :
    Except PredError (List JsVal × List Char) :=
  match ai with
  | none => .error .serviceUnavailable
  | some _ =>
    let prompt := promptFor game recentDrawsChronological
    let responseText := generateContent prompt
    let jsonStr := normalizeResponse responseText
    match parseJSON jsonStr with
    | none => .error .malformedResponse
    | some (nums, summary) => validateGeminiResponse game nums summary

/-! ## The application state machine (`App.tsx`)

Model of the single-threaded, event-driven execution of the `App`
component, as far as the prediction-staleness property is concerned.  Each
event is one handler invocation (or the resolution of the awaited service
call); the frequency `useEffect`'s reset of the held prediction on every
draw-collection change (lines 152–154) is folded into the draw-mutating
events, since the effect runs before any further event is processed. -/

structure AppState where
  recentDraws : List (List ℕ)
  geminiPrediction : Option (List JsVal × List Char)
  isLoadingAiPrediction : Bool
  /-- The chronological snapshot `[...recentDraws].reverse()` passed to the
  in-flight `getGeminiPrediction` call, if one is outstanding. -/
  pendingRequestDraws : Option (List (List ℕ))
deriving DecidableEq

inductive AppEvent where
  | addDraw (d : List ℕ)
  | addMultipleDraws (ds : List (List ℕ))
  | removeDraw (i : ℤ)
  | clearDraws
  | gameChange
  /-- `handleGetGeminiPrediction` is invoked (lines 158–168). -/
  | getPrediction
  /-- The awaited `getGeminiPrediction` promise fulfils with `result`, and
  the continuation (lines 169, 177–179) runs:
  `setGeminiPrediction(prediction)` — unconditionally. -/
  | predictionResolves (result : List JsVal × List Char)

def appStep (s : AppState) : AppEvent → AppState
  | .addDraw d =>
    { s with recentDraws := d :: s.recentDraws, geminiPrediction := none }
  | .addMultipleDraws ds =>
    { s with recentDraws := handleAddMultipleDraws ds s.recentDraws,
             geminiPrediction := none }
  | .removeDraw i =>
    { s with recentDraws := handleRemoveDraw i s.recentDraws,
             geminiPrediction := none }
  | .clearDraws =>
    { s with recentDraws := [], geminiPrediction := none }
  | .gameChange =>
    { s with recentDraws := [], geminiPrediction := none,
             pendingRequestDraws := s.pendingRequestDraws }
  | .getPrediction =>
    if s.recentDraws.length < 3 then s
    else
      { s with isLoadingAiPrediction := true, geminiPrediction := none,
               pendingRequestDraws := some s.recentDraws.reverse }
  | .predictionResolves result =>
    match s.pendingRequestDraws with
    | some _ =>
      { s with geminiPrediction := some result,
               isLoadingAiPrediction := false, pendingRequestDraws := none }
    | none => s

def runApp (s : AppState) (events : List AppEvent) : AppState :=
  events.foldl appStep s

/-! # Theorems -/

/-! ## C5: bulk insertion -/

/-- **C5.** For every existing collection and chronological (oldest-first)
input list, `insertManyFromChronological` (= `handleAddMultipleDraws`)
yields the input list reversed, prepended to the existing collection:
position `i < draws.length` of the result holds input draw
`draws.length - 1 - i`, and position `draws.length + j` holds the previous
collection's draw `j`; on an empty collection,
`[[1,2,3],[4,5,6]]` yields `[[4,5,6],[1,2,3]]`. -/
theorem handleAddMultipleDraws_spec (draws prevDraws : List (List ℕ)) :
    (handleAddMultipleDraws draws prevDraws).length = draws.length + prevDraws.length
    ∧ (∀ i, i < draws.length →
        (handleAddMultipleDraws draws prevDraws)[i]? = draws[draws.length - 1 - i]?)
    ∧ (∀ j, (handleAddMultipleDraws draws prevDraws)[draws.length + j]? = prevDraws[j]?)
    ∧ handleAddMultipleDraws [[1,2,3],[4,5,6]] [] = [[4,5,6],[1,2,3]] := by
  refine ⟨by simp [handleAddMultipleDraws], ?_, ?_, by decide⟩
  · intro i hi
    have hi' : i < draws.reverse.length := by simpa using hi
    have h1 : draws.length - 1 - i < draws.length := by omega
    rw [handleAddMultipleDraws, List.getElem?_append, if_pos hi',
      List.getElem?_eq_getElem hi', List.getElem?_eq_getElem h1, List.getElem_reverse]
  · intro j
    rw [handleAddMultipleDraws, List.getElem?_append, if_neg (by simp)]
    simp

/-! ## C10: removal by index -/

lemma enumFrom_filter_ne_map (l : List (List ℕ)) :
    ∀ (n : ℕ) (i : ℤ),
      ((List.enumFrom n l).filter fun p => (p.1 : ℤ) ≠ i).map (·.2) =
        if (n : ℤ) ≤ i ∧ i < (n : ℤ) + l.length then
          l.take (i - n).toNat ++ l.drop ((i - n).toNat + 1)
        else l := by
  induction l with
  | nil => intro n i; simp
  | cons a t ih =>
    intro n i
    rw [List.enumFrom_cons, List.filter_cons]
    simp only [List.length_cons]
    by_cases h : (n : ℤ) = i
    · have hd : (decide ((n : ℤ) ≠ i)) = false := by simp [h]
      rw [hd]
      simp only [Bool.false_eq_true, if_false]
      rw [ih (n + 1) i]
      split_ifs with h1 h2 h2
      · omega
      · omega
      · have h3 : (i - (n : ℤ)).toNat = 0 := by omega
        rw [h3]
        simp
      · omega
    · have hd : (decide ((n : ℤ) ≠ i)) = true := by simp [h]
      rw [hd]
      simp only [if_true, List.map_cons]
      rw [ih (n + 1) i]
      split_ifs with h1 h2 h2
      · have h3 : (i - (n : ℤ)).toNat = (i - ((n : ℤ) + 1)).toNat + 1 := by omega
        rw [h3, List.take_succ_cons, List.drop_succ_cons]
        simp
      · omega
      · omega
      · rfl

/-- **C10.** `removeAt(index)` (= `handleRemoveDraw`) deletes exactly the
element at position `index` when `0 ≤ index < length`, keeping all other
elements in their relative order, and returns the collection unchanged —
with no error of any kind — when the index is out of range (the
implementation resolves the spec's silent-no-op-or-`IndexOutOfRange`
choice as a silent no-op). -/
theorem handleRemoveDraw_spec (i : ℤ) (prevDraws : List (List ℕ)) :
    (0 ≤ i → i < prevDraws.length →
      handleRemoveDraw i prevDraws =
        prevDraws.take i.toNat ++ prevDraws.drop (i.toNat + 1))
    ∧ ((i < 0 ∨ (prevDraws.length : ℤ) ≤ i) → handleRemoveDraw i prevDraws = prevDraws) := by
  constructor
  · intro h0 hlen
    rw [handleRemoveDraw, List.enum_eq_enumFrom, enumFrom_filter_ne_map]
    rw [if_pos (by push_cast; omega)]
    congr 2 <;> omega
  · intro h
    rw [handleRemoveDraw, List.enum_eq_enumFrom, enumFrom_filter_ne_map]
    rw [if_neg (by push_cast; omega)]

/-- Witness for C10 at concrete inputs: removing index 1 from a 3-element
collection keeps elements 0 and 2; index 5 and index −1 are silent no-ops. -/
theorem handleRemoveDraw_spec_witness :
    handleRemoveDraw 1 [[1,2,3],[4,5,6],[7,8,9]] = [[1,2,3],[7,8,9]]
    ∧ handleRemoveDraw 5 [[1,2,3],[4,5,6],[7,8,9]] = [[1,2,3],[4,5,6],[7,8,9]]
    ∧ handleRemoveDraw (-1) [[1,2,3],[4,5,6],[7,8,9]] = [[1,2,3],[4,5,6],[7,8,9]] := by
  refine ⟨?_, ?_, ?_⟩
  · have := (handleRemoveDraw_spec 1 [[1,2,3],[4,5,6],[7,8,9]]).1 (by decide) (by decide)
    simpa using this
  · exact (handleRemoveDraw_spec 5 [[1,2,3],[4,5,6],[7,8,9]]).2 (by decide)
  · exact (handleRemoveDraw_spec (-1) [[1,2,3],[4,5,6],[7,8,9]]).2 (by decide)

/-! ## C9: disabled service state -/

/-- **C9.** With no credential (or a falsy empty-string credential) the
client is constructed disabled (`ai = null`), and in that state every
invocation of `getGeminiPrediction` fails immediately with
`ServiceUnavailable`, for all games, draw histories, and external
collaborators — in particular the result does not depend on the external
endpoint at all, so no call is attempted. -/
theorem gemini_disabled_spec (game : LottoGame)
    (recentDrawsChronological : List (List ℕ))
    (generateContent : List Char → List Char)
    (parseJSON : List Char → Option (List JsVal × List Char)) :
    mkGenAI none = none
    ∧ mkGenAI (some []) = none
    ∧ getGeminiPrediction (mkGenAI none) game recentDrawsChronological
        generateContent parseJSON = .error .serviceUnavailable
    ∧ getGeminiPrediction none game recentDrawsChronological
        generateContent parseJSON = .error .serviceUnavailable :=
  ⟨rfl, rfl, rfl, rfl⟩

/-! ## C3: stale prediction responses -/

/-- **C3 (refuted — the code lacks the guard the spec demands).**  There is
an interleaving in which a prediction response that arrives after the Draw
Collection (respectively the active game) has changed *is* applied: the
`await` continuation runs `setGeminiPrediction(prediction)` with no
generation token or staleness check, so after
start-request / add-draw / response-arrives the held prediction is exactly
the stale response even though the collection differs from the request-time
snapshot. -/
theorem stale_prediction_applied :
    (runApp ⟨[[7,8,9],[4,5,6],[1,2,3]], none, false, none⟩
        [.getPrediction, .addDraw [0,0,0],
         .predictionResolves ([.num 1, .num 2, .num 3], "stale".toList)]).geminiPrediction
      = some ([.num 1, .num 2, .num 3], "stale".toList)
    ∧ (runApp ⟨[[7,8,9],[4,5,6],[1,2,3]], none, false, none⟩
        [.getPrediction, .addDraw [0,0,0],
         .predictionResolves ([.num 1, .num 2, .num 3], "stale".toList)]).recentDraws
      ≠ [[7,8,9],[4,5,6],[1,2,3]]
    ∧ (runApp ⟨[[7,8,9],[4,5,6],[1,2,3]], none, false, none⟩
        [.getPrediction, .gameChange,
         .predictionResolves ([.num 1, .num 2, .num 3], "stale".toList)]).geminiPrediction
      = some ([.num 1, .num 2, .num 3], "stale".toList) := by
  refine ⟨rfl, by decide, rfl⟩

/-! ## C8: prediction-response validation -/

lemma check3dDigits_eq_none_iff (nums : List JsVal) :
    ∀ i0, check3dDigits i0 nums = none ↔ ∀ v ∈ nums, isValid3dDigit v := by
  induction nums with
  | nil => intro i0; simp [check3dDigits]
  | cons v rest ih =>
    intro i0
    by_cases hv : isValid3dDigit v
    · simp [check3dDigits, hv, ih (i0 + 1)]
    · simp [check3dDigits, hv]

lemma check3dDigits_first_invalid (nums : List JsVal) :
    ∀ i0 k (hk : k < nums.length),
      (∀ j (hj : j < k), isValid3dDigit (nums.get ⟨j, hj.trans hk⟩)) →
      ¬ isValid3dDigit (nums.get ⟨k, hk⟩) →
      check3dDigits i0 nums = some (.invalidValue (nums.get ⟨k, hk⟩) (i0 + k + 1)) := by
  induction nums with
  | nil => intro _ k hk; simp at hk
  | cons v rest ih =>
    intro i0 k hk hprev hbad
    match k with
    | 0 =>
      simp only [List.get] at hbad
      simp [check3dDigits, hbad]
    | k' + 1 =>
      have hv : isValid3dDigit v := by
        have := hprev 0 (by omega)
        simpa [List.get] using this
      rw [check3dDigits, if_pos hv]
      have hk' : k' < rest.length := by
        simpa using Nat.lt_of_succ_lt_succ hk
      have := ih (i0 + 1) k' hk'
        (fun j hj => by
          have := hprev (j + 1) (by omega)
          simpa [List.get] using this)
        (by simpa [List.get] using hbad)
      rw [this]
      congr 2
      omega

/-- **C8.** For every parsed prediction response validated against the
3-digit game: with a truthy summary (the source's separate structural
check), validation fails with the length-mismatch error whenever
`predictedNumbers` does not have length 3; with length 3 it fails with
`InvalidPredictionValue` naming the first offending value and its 1-based
position whenever some element is not an integral number in `[0,9]`;
otherwise it succeeds unchanged.  In particular
`{"predictedNumbers":[1,2],"analysisSummary":"x"}` fails. -/
theorem validateGeminiResponse_3d_spec (nums : List JsVal) (summary : List Char)
    (hs : summary ≠ []) :
    (nums.length ≠ 3 →
      validateGeminiResponse game3d nums summary = .error (.wrongLength nums.length 3))
    ∧ (nums.length = 3 →
        ∀ k (hk : k < nums.length),
          (∀ j (hj : j < k), isValid3dDigit (nums.get ⟨j, hj.trans hk⟩)) →
          ¬ isValid3dDigit (nums.get ⟨k, hk⟩) →
          validateGeminiResponse game3d nums summary
            = .error (.invalidValue (nums.get ⟨k, hk⟩) (k + 1)))
    ∧ (nums.length = 3 → (∀ v ∈ nums, isValid3dDigit v) →
        validateGeminiResponse game3d nums summary = .ok (nums, summary))
    ∧ validateGeminiResponse game3d [.num 1, .num 2] ("x".toList)
        = .error (.wrongLength 2 3) := by
  refine ⟨?_, ?_, ?_, by decide⟩
  · intro hlen
    rw [validateGeminiResponse, if_neg hs, if_pos (show game3d.id = "3d" from rfl)]
    rw [if_pos hlen]
  · intro hlen k hk hprev hbad
    rw [validateGeminiResponse, if_neg hs, if_pos (show game3d.id = "3d" from rfl)]
    rw [if_neg (by omega)]
    have := check3dDigits_first_invalid nums 0 k hk hprev hbad
    rw [this]
    simp
  · intro hlen hall
    rw [validateGeminiResponse, if_neg hs, if_pos (show game3d.id = "3d" from rfl)]
    rw [if_neg (by omega)]
    rw [(check3dDigits_eq_none_iff nums 0).2 hall]

/-- Witness for C8: the concrete short response from the spec's test list,
validated through the theorem. -/
theorem validateGeminiResponse_3d_spec_witness :
    validateGeminiResponse game3d [.num 1, .num 2] ("x".toList)
      = .error (.wrongLength 2 3) :=
  (validateGeminiResponse_3d_spec [.num 1, .num 2] ("x".toList) (by decide)).2.2.2

/-! ## C4: batch CSV parsing -/

lemma processCsv_foldl (toNum : List Char → Option ℚ) :
    ∀ (l : List (ℕ × List Char)) (d : List (List ℚ) × List (ℕ × List Char × ValidationError)),
      (l.foldl
        (fun acc p =>
          match validateAndParseDraw toNum p.2 with
          | .error e => (acc.1, acc.2 ++ [(p.1 + 1, p.2, e)])
          | .ok draw => (acc.1 ++ [draw], acc.2)) d)
      = (d.1 ++ l.filterMap (fun p => (validateAndParseDraw toNum p.2).toOption),
         d.2 ++ l.filterMap (fun p =>
           match validateAndParseDraw toNum p.2 with
           | .error e => some (p.1 + 1, p.2, e)
           | .ok _ => none)) := by
  intro l
  induction l with
  | nil => intro d; simp
  | cons a t ih =>
    intro d
    rw [List.foldl_cons]
    cases hfa : validateAndParseDraw toNum a.2 with
    | error e =>
      simp only [hfa]
      rw [ih]
      simp [List.filterMap_cons, hfa, Except.toOption]
    | ok b =>
      simp only [hfa]
      rw [ih]
      simp [List.filterMap_cons, hfa, Except.toOption]

lemma enumFrom_filterMap_valid (toNum : List Char → Option ℚ) :
    ∀ (n : ℕ) (l : List (List Char)),
      (List.enumFrom n l).filterMap (fun p => (validateAndParseDraw toNum p.2).toOption)
        = l.filterMap (fun line => (validateAndParseDraw toNum line).toOption) := by
  intro n l
  induction l generalizing n with
  | nil => simp
  | cons a t ih => simp [List.enumFrom_cons, List.filterMap_cons, ih]

lemma processCsv_partition_length (toNum : List Char → Option ℚ)
    (l : List (ℕ × List Char)) :
    (l.filterMap (fun p => (validateAndParseDraw toNum p.2).toOption)).length
      + (l.filterMap (fun p =>
          match validateAndParseDraw toNum p.2 with
          | .error e => some (p.1 + 1, p.2, e)
          | .ok _ => none)).length
      = l.length := by
  induction l with
  | nil => simp
  | cons a t ih =>
    simp only [Except.toOption] at ih ⊢
    cases hfa : validateAndParseDraw toNum a.2 with
    | error e =>
      simp only [List.filterMap_cons, hfa, List.length_cons]
      omega
    | ok b =>
      simp only [List.filterMap_cons, hfa, List.length_cons]
      omega

/-- **C4.** Batch parsing splits the input on line breaks, trims, discards
blank lines, and applies `parseDraw` to *every* remaining line with no
short-circuit: the successes are exactly the parses of the valid lines in
order, the failures are exactly the invalid lines, each tagged with its
(1-based) line number among the processed lines, and every processed line
lands in exactly one of the two outputs.  The rendered error report shows
at most 5 errors plus a tally of the remainder. -/
theorem processCsvText_spec (toNum : List Char → Option ℚ) (text : List Char) :
    (processCsvText toNum text).1
      = (((splitLinesJs text).map trimJs).filter (· ≠ [])).filterMap
          (fun line => (validateAndParseDraw toNum line).toOption)
    ∧ (processCsvText toNum text).2
      = (((splitLinesJs text).map trimJs).filter (· ≠ [])).enum.filterMap
          (fun p =>
            match validateAndParseDraw toNum p.2 with
            | .error e => some (p.1 + 1, p.2, e)
            | .ok _ => none)
    ∧ (processCsvText toNum text).1.length + (processCsvText toNum text).2.length
      = (((splitLinesJs text).map trimJs).filter (· ≠ [])).length
    ∧ (∀ errs : List (ℕ × List Char × ValidationError),
        (csvErrorReport errs).1 = errs.take 5
        ∧ (csvErrorReport errs).1.length ≤ 5
        ∧ (errs.length ≤ 5 → csvErrorReport errs = (errs, none))
        ∧ (5 < errs.length → csvErrorReport errs = (errs.take 5, some (errs.length - 5)))) := by
  have hfold := processCsv_foldl toNum
    (((splitLinesJs text).map trimJs).filter (· ≠ [])).enum ([], [])
  refine ⟨?_, ?_, ?_, ?_⟩
  · rw [processCsvText, hfold]
    simp only [List.nil_append]
    rw [List.enum_eq_enumFrom, enumFrom_filterMap_valid]
  · rw [processCsvText, hfold]
    simp
  · rw [processCsvText, hfold]
    simp only [List.nil_append]
    rw [processCsv_partition_length]
    simp
  · intro errs
    refine ⟨rfl, ?_, ?_, ?_⟩
    · simp [csvErrorReport]
    · intro h
      simp [csvErrorReport, Nat.not_lt.2 h, List.take_of_length_le h]
    · intro h
      simp [csvErrorReport, h]

/-- Witness for C4: six concrete errors are reported as the first five plus
a one-more tally. -/
theorem processCsvText_spec_witness :
    csvErrorReport (List.replicate 6 (1, ([] : List Char), ValidationError.notNumeric))
      = (List.replicate 5 (1, ([] : List Char), ValidationError.notNumeric), some 1) := by
  have h := ((processCsvText_spec toNumDigits []).2.2.2
    (List.replicate 6 (1, ([] : List Char), ValidationError.notNumeric))).2.2.2
    (by decide)
  rw [h]
  decide

/-! ## C2: frequency analysis -/

/-- **C2.** For every non-empty draw list the frequency analysis has one
entry per distinct observed value (no duplicates, and exactly the values
occurring in some draw), each entry's count is the value's number of
occurrences across all draws, each percentage is `100·count/totalCount`
with `totalCount` the total number of digits, and the list is sorted by
count descending with ties broken by value ascending.  For
`[[1,2,3],[1,2,3],[4,5,6]]` the result is computed exactly: digit 1 has
count 2 and percentage `200/9 = (2/9)·100`, digit 2 has count 2, and digit
1 precedes digit 2. -/
theorem frequencyData_spec :
    (∀ draws : List (List ℕ), draws ≠ [] →
      ((analyzeDraws draws 3).1.map (·.number)).Nodup
      ∧ (∀ v : ℕ, v ∈ (analyzeDraws draws 3).1.map (·.number) ↔ v ∈ draws.flatten)
      ∧ (∀ e ∈ (analyzeDraws draws 3).1,
          e.count = draws.flatten.count e.number
          ∧ e.percentage = 100 * (e.count : ℚ) / (draws.flatten.length : ℚ))
      ∧ List.Sorted freqOrder (analyzeDraws draws 3).1)
    ∧ (analyzeDraws [[1,2,3],[1,2,3],[4,5,6]] 3).1 =
        [⟨1, 2, ((2 : ℚ) / 9) * 100⟩, ⟨2, 2, ((2 : ℚ) / 9) * 100⟩,
         ⟨3, 2, ((2 : ℚ) / 9) * 100⟩, ⟨4, 1, ((1 : ℚ) / 9) * 100⟩,
         ⟨5, 1, ((1 : ℚ) / 9) * 100⟩, ⟨6, 1, ((1 : ℚ) / 9) * 100⟩] := by
  constructor
  · intro draws hne
    have hfd : (analyzeDraws draws 3).1 = computeFrequencyData draws := by
      rw [analyzeDraws, if_neg (by simpa using hne)]
    rw [hfd]
    rw [computeFrequencyData]
    set flat := draws.flatten with hflat
    set keys := flat.dedup.insertionSort (· ≤ ·) with hkeys
    set mk : ℕ → FrequencyData := fun v =>
      { number := v
        count := flat.count v
        percentage :=
          if 0 < flat.length then ((flat.count v : ℚ) / (flat.length : ℚ)) * 100 else 0 }
      with hmk
    have hperm : (List.insertionSort freqOrder (keys.map mk)).Perm (keys.map mk) :=
      List.perm_insertionSort freqOrder (keys.map mk)
    have hkeysperm : keys.Perm flat.dedup := List.perm_insertionSort _ _
    have hmapnum : ((keys.map mk).map (·.number)) = keys := by
      rw [List.map_map]
      have : ((·.number) ∘ mk) = id := by
        funext v; simp [hmk]
      rw [this, List.map_id]
    refine ⟨?_, ?_, ?_, ?_⟩
    · have h1 : ((List.insertionSort freqOrder (keys.map mk)).map (·.number)).Perm keys := by
        have := hperm.map (·.number)
        rwa [hmapnum] at this
      rw [h1.nodup_iff]
      exact hkeysperm.nodup_iff.2 (List.nodup_dedup flat)
    · intro v
      have h1 : ((List.insertionSort freqOrder (keys.map mk)).map (·.number)).Perm keys := by
        have := hperm.map (·.number)
        rwa [hmapnum] at this
      rw [h1.mem_iff, hkeysperm.mem_iff, List.mem_dedup]
    · intro e he
      have he2 : e ∈ keys.map mk := hperm.mem_iff.1 he
      obtain ⟨v, _, hv⟩ := List.mem_map.1 he2
      subst hv
      refine ⟨rfl, ?_⟩
      simp only [hmk]
      by_cases hL : 0 < flat.length
      · rw [if_pos hL]
        ring
      · rw [if_neg hL]
        have hlen : flat.length = 0 := by omega
        rw [List.length_eq_zero] at hlen
        rw [hlen]
        simp
    · exact List.sorted_insertionSort freqOrder (keys.map mk)
  · rfl

/-- Witness for C2: the distinct-entries property at the spec's example. -/
theorem frequencyData_spec_witness :
    ((analyzeDraws [[1,2,3],[1,2,3],[4,5,6]] 3).1.map (·.number)).Nodup :=
  (frequencyData_spec.1 [[1,2,3],[1,2,3],[4,5,6]] (by decide)).1

/-! ## C6: hot-digits prediction -/

/-- **C6.** The hot-digits prediction is, for every draw list and pick
count, an ascending-sorted permutation of the values of the first
`numbersToPick` entries of the frequency list; its length is
`min numbersToPick (number of entries)`, the number of entries being the
number of distinct observed values — so with fewer distinct values than
`numbersToPick` the prediction is the correspondingly shorter list, not an
error — and the empty draw list yields empty frequency data and an empty
prediction. -/
theorem hotDigits_spec (draws : List (List ℕ)) (numbersToPick : ℕ) :
    List.Sorted (· ≤ ·) (analyzeDraws draws numbersToPick).2
    ∧ (analyzeDraws draws numbersToPick).2.Perm
        (((analyzeDraws draws numbersToPick).1.take numbersToPick).map (·.number))
    ∧ (analyzeDraws draws numbersToPick).2.length
        = min numbersToPick (analyzeDraws draws numbersToPick).1.length
    ∧ (draws ≠ [] →
        (analyzeDraws draws numbersToPick).1.length = draws.flatten.dedup.length)
    ∧ analyzeDraws ([] : List (List ℕ)) numbersToPick = ([], []) := by
  by_cases hne : draws = []
  · subst hne
    refine ⟨by simp [analyzeDraws], by simp [analyzeDraws], by simp [analyzeDraws],
      by simp, by simp [analyzeDraws]⟩
  · have h1 : analyzeDraws draws numbersToPick =
        (computeFrequencyData draws,
          (((computeFrequencyData draws).take numbersToPick).map
            (·.number)).insertionSort (· ≤ ·)) := by
      rw [analyzeDraws, if_neg (by simpa using hne)]
    refine ⟨?_, ?_, ?_, ?_, by simp [analyzeDraws]⟩
    · rw [h1]
      exact List.sorted_insertionSort _ _
    · rw [h1]
      exact List.perm_insertionSort _ _
    · rw [h1]
      simp [List.length_insertionSort, List.length_take]
    · intro _
      rw [h1]
      simp only [computeFrequencyData]
      rw [List.length_insertionSort, List.length_map, List.length_insertionSort]

/-- Witness for C5: inserting two chronological draws into the empty
collection puts the later draw in front, via the theorem. -/
theorem handleAddMultipleDraws_spec_witness :
    (handleAddMultipleDraws [[1,2,3],[4,5,6]] ([] : List (List ℕ)))[0]? = some [4,5,6] := by
  have h := (handleAddMultipleDraws_spec [[1,2,3],[4,5,6]] []).2.1 0 (by decide)
  simpa using h

/-- Witness for C6: with only three distinct values among six digits, the
frequency list has three entries. -/
theorem hotDigits_spec_witness :
    (analyzeDraws [[2,2,2],[3,1,2]] 3).1.length
      = ([[2,2,2],[3,1,2]] : List (List ℕ)).flatten.dedup.length :=
  (hotDigits_spec [[2,2,2],[3,1,2]] 3).2.2.2.1 (by decide)

/-! ## C1: the draw parser -/

lemma splitSeps_cons (c : Char) (l : List Char) :
    splitSeps (c :: l) =
      if sepJs c then
        match l with
        | [] => [] :: splitSeps l
        | d :: _ => if sepJs d then splitSeps l else [] :: splitSeps l
      else
        match splitSeps l with
        | t :: ts' => (c :: t) :: ts'
        | [] => [[c]] := rfl

lemma splitSeps_ne_nil (l : List Char) : splitSeps l ≠ [] := by
  induction l with
  | nil => simp [splitSeps]
  | cons c t ih =>
    rw [splitSeps_cons]
    by_cases hc : sepJs c
    · rw [if_pos hc]
      cases t with
      | nil => simp
      | cons d t' =>
        by_cases hd : sepJs d
        · simpa [hd] using ih
        · simp [hd]
    · rw [if_neg hc]
      cases hts : splitSeps t with
      | nil => simp
      | cons t0 ts' => simp

lemma splitSeps_sepFree (l : List Char) :
    ∀ t ∈ splitSeps l, ∀ c ∈ t, sepJs c = false := by
  induction l with
  | nil =>
    intro t ht c hc
    simp [splitSeps] at ht
    subst ht
    simp at hc
  | cons x l ih =>
    intro t ht c hc
    rw [splitSeps_cons] at ht
    by_cases hx : sepJs x
    · rw [if_pos hx] at ht
      cases l with
      | nil =>
        rcases List.mem_cons.1 ht with h | h
        · subst h; simp at hc
        · exact ih t h c hc
      | cons d l' =>
        by_cases hd : sepJs d
        · simp only [hd, if_true] at ht
          exact ih t ht c hc
        · simp only [hd, Bool.false_eq_true, if_false] at ht
          rcases List.mem_cons.1 ht with h | h
          · subst h; simp at hc
          · exact ih t h c hc
    · rw [if_neg hx] at ht
      cases hts : splitSeps l with
      | nil => exact absurd hts (splitSeps_ne_nil l)
      | cons t0 ts' =>
        rw [hts] at ht
        rcases List.mem_cons.1 ht with h | h
        · subst h
          rcases List.mem_cons.1 hc with h2 | h2
          · subst h2
            simpa using hx
          · exact ih t0 (by rw [hts]; exact List.mem_cons_self t0 ts') c h2
        · exact ih t (by rw [hts]; exact List.mem_cons_of_mem t0 h) c hc

lemma wsJs_eq_false_of_sepJs (c : Char) (h : sepJs c = false) : wsJs c = false := by
  rw [sepJs] at h
  simp only [Bool.or_eq_false_iff] at h
  exact h.2

lemma trimJs_of_no_ws (l : List Char) (h : ∀ c ∈ l, wsJs c = false) : trimJs l = l := by
  have h1 : l.dropWhile wsJs = l := by
    cases l with
    | nil => rfl
    | cons c t =>
      rw [List.dropWhile_cons]
      simp [h c (by simp)]
  rw [trimJs, h1]
  have h2 : l.reverse.dropWhile wsJs = l.reverse := by
    cases hr : l.reverse with
    | nil => rfl
    | cons c t =>
      rw [List.dropWhile_cons]
      have hcMem : c ∈ l := by
        rw [← List.mem_reverse, hr]
        simp
      simp [h c hcMem]
  rw [h2, List.reverse_reverse]

lemma numbersStrOf_eq_filter (l : List Char) :
    numbersStrOf l = (splitSeps l).filter (· ≠ []) := by
  rw [numbersStrOf]
  congr 1
  have : ∀ t ∈ splitSeps l, trimJs t = id t := by
    intro t ht
    exact trimJs_of_no_ws t fun c hc =>
      wsJs_eq_false_of_sepJs c (splitSeps_sepFree l t ht c hc)
  rw [List.map_congr_left this, List.map_id]

lemma numbersStrOf_nil : numbersStrOf [] = [] := by decide

lemma numbersStrOf_cons_sep (c : Char) (l : List Char) (hc : sepJs c = true) :
    numbersStrOf (c :: l) = numbersStrOf l := by
  rw [numbersStrOf_eq_filter, numbersStrOf_eq_filter, splitSeps_cons, if_pos hc]
  cases l with
  | nil => decide
  | cons d l' =>
    by_cases hd : sepJs d
    · simp only [hd, if_true]
    · simp only [hd, Bool.false_eq_true, if_false, List.filter_cons]
      simp

lemma splitSeps_head_takeWhile (l : List Char) :
    ∃ ts', splitSeps l = (l.takeWhile fun c => !sepJs c) :: ts' := by
  induction l with
  | nil => exact ⟨[], rfl⟩
  | cons c l ih =>
    rw [splitSeps_cons]
    by_cases hc : sepJs c
    · rw [if_pos hc]
      have htw : ((c :: l).takeWhile fun c => !sepJs c) = [] := by
        rw [List.takeWhile_cons]
        simp [hc]
      rw [htw]
      cases l with
      | nil => exact ⟨splitSeps [], rfl⟩
      | cons d l' =>
        by_cases hd : sepJs d
        · simp only [hd, if_true]
          obtain ⟨ts', hts⟩ := ih
          have : ((d :: l').takeWhile fun c => !sepJs c) = [] := by
            rw [List.takeWhile_cons]
            simp [hd]
          rw [this] at hts
          exact ⟨ts', hts⟩
        · simp only [hd, Bool.false_eq_true, if_false]
          exact ⟨splitSeps (d :: l'), rfl⟩
    · rw [if_neg hc]
      obtain ⟨ts', hts⟩ := ih
      rw [hts]
      refine ⟨ts', ?_⟩
      rw [List.takeWhile_cons]
      simp [hc]

lemma splitSeps_decomp (l : List Char) :
    splitSeps l = (l.takeWhile fun c => !sepJs c)
      :: (splitSeps (l.dropWhile fun c => !sepJs c)).tail := by
  induction l with
  | nil => rfl
  | cons c l ih =>
    by_cases hc : sepJs c
    · have htw : ((c :: l).takeWhile fun c => !sepJs c) = [] := by
        rw [List.takeWhile_cons]; simp [hc]
      have hdw : ((c :: l).dropWhile fun c => !sepJs c) = c :: l := by
        rw [List.dropWhile_cons]; simp [hc]
      rw [htw, hdw]
      obtain ⟨ts', hts⟩ := splitSeps_head_takeWhile (c :: l)
      rw [htw] at hts
      rw [hts]
      simp
    · have htw : ((c :: l).takeWhile fun c => !sepJs c)
          = c :: (l.takeWhile fun c => !sepJs c) := by
        rw [List.takeWhile_cons]; simp [hc]
      have hdw : ((c :: l).dropWhile fun c => !sepJs c)
          = l.dropWhile fun c => !sepJs c := by
        rw [List.dropWhile_cons]; simp [hc]
      rw [htw, hdw, splitSeps_cons, if_neg hc, ih]

lemma dropWhile_head_false (p : Char → Bool) (l : List Char) (d : Char) (rest : List Char)
    (h : l.dropWhile p = d :: rest) : p d = false := by
  induction l with
  | nil => simp at h
  | cons c t ih =>
    rw [List.dropWhile_cons] at h
    by_cases hc : p c
    · rw [if_pos hc] at h
      exact ih h
    · rw [if_neg hc] at h
      injection h with h1 h2
      subst h1
      simpa using hc

lemma numbersStrOf_cons_tok (x : Char) (l : List Char) (hx : sepJs x = false) :
    numbersStrOf (x :: l)
      = (x :: (l.takeWhile fun c => !sepJs c))
        :: numbersStrOf (l.dropWhile fun c => !sepJs c) := by
  rw [numbersStrOf_eq_filter, numbersStrOf_eq_filter]
  have hdecomp := splitSeps_decomp (x :: l)
  have htw : ((x :: l).takeWhile fun c => !sepJs c)
      = x :: (l.takeWhile fun c => !sepJs c) := by
    rw [List.takeWhile_cons]; simp [hx]
  have hdw : ((x :: l).dropWhile fun c => !sepJs c)
      = l.dropWhile fun c => !sepJs c := by
    rw [List.dropWhile_cons]; simp [hx]
  rw [htw, hdw] at hdecomp
  rw [hdecomp, List.filter_cons, if_pos (by simp)]
  congr 1
  -- the dropped remainder starts (if at all) with an empty piece, which the
  -- filter removes from the full split as well
  obtain ⟨ts', hts⟩ := splitSeps_head_takeWhile (l.dropWhile fun c => !sepJs c)
  have hhead : ((l.dropWhile fun c => !sepJs c).takeWhile fun c => !sepJs c) = [] := by
    cases hdw2 : l.dropWhile fun c => !sepJs c with
    | nil => rfl
    | cons d rest =>
      have := dropWhile_head_false _ l d rest hdw2
      rw [List.takeWhile_cons]
      simp at this
      simp [this]
  rw [hhead] at hts
  rw [hts]
  simp [List.filter_cons]

lemma splitSeps_all_nonsep (l : List Char) (hne : l ≠ [])
    (h : ∀ c ∈ l, sepJs c = false) : splitSeps l = [l] := by
  induction l with
  | nil => exact absurd rfl hne
  | cons c t ih =>
    have hc : sepJs c = false := h c (by simp)
    rw [splitSeps_cons, if_neg (by simp [hc])]
    cases t with
    | nil => rfl
    | cons d t' =>
      rw [ih (by simp) fun a ha => h a (List.mem_cons_of_mem c ha)]

lemma numbersStrOf_all_nonsep (l : List Char) (hne : l ≠ [])
    (h : ∀ c ∈ l, sepJs c = false) : numbersStrOf l = [l] := by
  rw [numbersStrOf_eq_filter, splitSeps_all_nonsep l hne h, List.filter_cons,
    if_pos (by simpa using hne)]
  rfl

lemma length_dropWhile_le' (p : Char → Bool) (l : List Char) :
    (l.dropWhile p).length ≤ l.length := by
  induction l with
  | nil => simp
  | cons c t ih =>
    rw [List.dropWhile_cons]
    by_cases hc : p c
    · rw [if_pos hc]
      exact ih.trans (by simp)
    · rw [if_neg hc]

lemma takeWhile_length_eq (p : Char → Bool) (l : List Char)
    (h : (l.takeWhile p).length = l.length) : l.takeWhile p = l := by
  induction l with
  | nil => rfl
  | cons c t ih =>
    rw [List.takeWhile_cons] at h ⊢
    by_cases hc : p c
    · rw [if_pos hc] at h ⊢
      rw [ih (by simpa using h)]
    · rw [if_neg hc] at h
      simp at h

lemma numbersStrOf_append_sep :
    ∀ (n : ℕ) (xs : List Char), xs.length ≤ n →
      ∀ (c : Char) (ys : List Char), sepJs c = true →
        numbersStrOf (xs ++ c :: ys) = numbersStrOf xs ++ numbersStrOf ys := by
  intro n
  induction n with
  | zero =>
    intro xs hxs c ys hc
    have hxs2 : xs = [] := by
      rw [← List.length_eq_zero]
      omega
    subst hxs2
    rw [List.nil_append, numbersStrOf_cons_sep c ys hc, numbersStrOf_nil, List.nil_append]
  | succ n ih =>
    intro xs hxs c ys hc
    cases xs with
    | nil =>
      rw [List.nil_append, numbersStrOf_cons_sep c ys hc, numbersStrOf_nil, List.nil_append]
    | cons x xs' =>
      by_cases hx : sepJs x
      · rw [List.cons_append, numbersStrOf_cons_sep x _ hx, numbersStrOf_cons_sep x _ hx]
        exact ih xs' (by simp at hxs; omega) c ys hc
      · have hx' : sepJs x = false := by simpa using hx
        rw [List.cons_append, numbersStrOf_cons_tok x _ hx', numbersStrOf_cons_tok x _ hx']
        by_cases hall : ∀ a ∈ xs', sepJs a = false
        · have htwself : (xs'.takeWhile fun c => !sepJs c) = xs' :=
            List.takeWhile_eq_self_iff.2 fun a ha => by simp [hall a ha]
          have htw : ((xs' ++ c :: ys).takeWhile fun c => !sepJs c) = xs' := by
            rw [List.takeWhile_append, if_pos (by rw [htwself])]
            rw [List.takeWhile_cons]
            simp [hc]
          have hdwnil : (xs'.dropWhile fun c => !sepJs c) = [] :=
            List.dropWhile_eq_nil_iff.2 fun a ha => by simp [hall a ha]
          have hdw : ((xs' ++ c :: ys).dropWhile fun c => !sepJs c) = c :: ys := by
            rw [List.dropWhile_append, if_pos (by rw [hdwnil]; rfl)]
            rw [List.dropWhile_cons]
            simp [hc]
          rw [htw, hdw, htwself, hdwnil, numbersStrOf_nil,
            numbersStrOf_cons_sep c ys hc, List.cons_append, List.nil_append]
        · have hne : ¬ (xs'.takeWhile fun c => !sepJs c).length = xs'.length := by
            intro hlen
            have := List.takeWhile_eq_self_iff.1 (takeWhile_length_eq _ _ hlen)
            push_neg at hall
            obtain ⟨a, ha, ha2⟩ := hall
            have := this a ha
            simp at this
            rw [this] at ha2
            exact ha2 rfl
          have htw : ((xs' ++ c :: ys).takeWhile fun c => !sepJs c)
              = xs'.takeWhile fun c => !sepJs c := by
            rw [List.takeWhile_append, if_neg hne]
          have hdwne : ¬ ((xs'.dropWhile fun c => !sepJs c).isEmpty = true) := by
            intro hemp
            rw [List.isEmpty_iff] at hemp
            have := List.dropWhile_eq_nil_iff.1 hemp
            push_neg at hall
            obtain ⟨a, ha, ha2⟩ := hall
            have := this a ha
            simp at this
            rw [this] at ha2
            exact ha2 rfl
          have hdw : ((xs' ++ c :: ys).dropWhile fun c => !sepJs c)
              = (xs'.dropWhile fun c => !sepJs c) ++ c :: ys := by
            rw [List.dropWhile_append, if_neg hdwne]
          rw [htw, hdw]
          have hlen2 : (xs'.dropWhile fun c => !sepJs c).length ≤ n := by
            have h1 := length_dropWhile_le' (fun c => !sepJs c) xs'
            have h2 : xs'.length + 1 ≤ n + 1 := by simpa using hxs
            omega
          rw [ih _ hlen2 c ys hc, List.cons_append]

lemma map_some_reduceOption (l : List (Option ℚ)) (h : ∀ o ∈ l, o ≠ none) :
    l.reduceOption.map some = l := by
  induction l with
  | nil => rfl
  | cons o t ih =>
    cases o with
    | none => exact absurd rfl (h none (by simp))
    | some a =>
      rw [List.reduceOption_cons_of_some, List.map_cons,
        ih fun o ho => h o (List.mem_cons_of_mem _ ho)]

/-- **C1.** `parseDraw` against the order-significant 3-digit game: the
input line is split on maximal runs of commas, hyphens, or whitespace
(characterised by: a separator-free non-empty line is one token, a
separator splits the tokenisations of the two sides, and the empty line has
no tokens), empty tokens are discarded (every token is non-empty and
separator-free); then, in exactly this priority: `WrongCount` when the
token count is not 3, else `NotNumeric` when some token fails numeric
parsing, else `OutOfRange` when some value is negative, above 9, or
non-integral, else success with the parsed values in input-token order
(`tokens.map toNum = result.map some`). -/
theorem validateAndParseDraw_spec (toNum : List Char → Option ℚ) (input : List Char) :
    (numbersStrOf [] = []
      ∧ (∀ l : List Char, l ≠ [] → (∀ c ∈ l, sepJs c = false) → numbersStrOf l = [l])
      ∧ (∀ (xs : List Char) (c : Char) (ys : List Char), sepJs c = true →
          numbersStrOf (xs ++ c :: ys) = numbersStrOf xs ++ numbersStrOf ys))
    ∧ (∀ t ∈ numbersStrOf input, t ≠ [] ∧ ∀ c ∈ t, sepJs c = false)
    ∧ ((numbersStrOf input).length ≠ 3 →
        validateAndParseDraw toNum input
          = .error (.wrongCount (numbersStrOf input).length))
    ∧ ((numbersStrOf input).length = 3 →
        (∃ t ∈ numbersStrOf input, toNum t = none) →
        validateAndParseDraw toNum input = .error .notNumeric)
    ∧ ((numbersStrOf input).length = 3 →
        (∀ t ∈ numbersStrOf input, toNum t ≠ none) →
        (∃ t ∈ numbersStrOf input, ∃ q, toNum t = some q ∧ (q < 0 ∨ 9 < q ∨ q.den ≠ 1)) →
        validateAndParseDraw toNum input = .error .outOfRange)
    ∧ ((numbersStrOf input).length = 3 →
        (∀ t ∈ numbersStrOf input, ∃ q, toNum t = some q ∧ 0 ≤ q ∧ q ≤ 9 ∧ q.den = 1) →
        ∃ vs, validateAndParseDraw toNum input = .ok vs
          ∧ (numbersStrOf input).map toNum = vs.map some) := by
  refine ⟨⟨numbersStrOf_nil, numbersStrOf_all_nonsep,
    fun xs c ys hc => numbersStrOf_append_sep xs.length xs le_rfl c ys hc⟩, ?_, ?_, ?_, ?_, ?_⟩
  · intro t ht
    rw [numbersStrOf_eq_filter] at ht
    rw [List.mem_filter] at ht
    exact ⟨by simpa using ht.2, splitSeps_sepFree input t ht.1⟩
  · intro hlen
    simp only [validateAndParseDraw]
    rw [if_pos hlen]
  · intro hlen hex
    have hany : ((numbersStrOf input).map toNum).any (·.isNone) = true := by
      rw [List.any_eq_true]
      obtain ⟨t, ht, htn⟩ := hex
      exact ⟨toNum t, List.mem_map_of_mem toNum ht, by simp [htn]⟩
    simp only [validateAndParseDraw]
    rw [if_neg (by omega), if_pos hany]
  · intro hlen hnone hex
    have hany : ((numbersStrOf input).map toNum).any (·.isNone) = false := by
      rw [← Bool.not_eq_true, List.any_eq_true]
      rintro ⟨o, ho, hno⟩
      obtain ⟨t, ht, rfl⟩ := List.mem_map.1 ho
      exact hnone t ht (by simpa using hno)
    have hany2 : (((numbersStrOf input).map toNum).reduceOption).any
        (fun n => decide (n < 0 ∨ 9 < n ∨ ¬ n.den = 1)) = true := by
      rw [List.any_eq_true]
      obtain ⟨t, ht, q, hq, hcond⟩ := hex
      refine ⟨q, ?_, by simpa using hcond⟩
      rw [List.reduceOption_mem_iff]
      exact hq ▸ List.mem_map_of_mem toNum ht
    simp only [validateAndParseDraw]
    rw [if_neg (by omega), if_neg (by simp [hany]), if_pos hany2]
  · intro hlen hall
    have hnone : ∀ o ∈ (numbersStrOf input).map toNum, o ≠ none := by
      intro o ho
      obtain ⟨t, ht, rfl⟩ := List.mem_map.1 ho
      obtain ⟨q, hq, -⟩ := hall t ht
      simp [hq]
    have hany : ((numbersStrOf input).map toNum).any (·.isNone) = false := by
      rw [← Bool.not_eq_true, List.any_eq_true]
      rintro ⟨o, ho, hno⟩
      exact hnone o ho (by simpa using hno)
    have hany2 : (((numbersStrOf input).map toNum).reduceOption).any
        (fun n => decide (n < 0 ∨ 9 < n ∨ ¬ n.den = 1)) = false := by
      rw [← Bool.not_eq_true, List.any_eq_true]
      rintro ⟨q, hq, hcond⟩
      rw [List.reduceOption_mem_iff] at hq
      obtain ⟨t, ht, htq⟩ := List.mem_map.1 hq
      obtain ⟨q', hq', h0, h9, hden⟩ := hall t ht
      rw [htq] at hq'
      injection hq' with hqq
      subst hqq
      simp at hcond
      rcases hcond with h | h | h
      · exact absurd h (by simpa using h0)
      · exact absurd h (by simpa using h9)
      · exact h hden
    refine ⟨((numbersStrOf input).map toNum).reduceOption, ?_, ?_⟩
    · simp only [validateAndParseDraw]
      rw [if_neg (by omega), if_neg (by simp [hany]),
        if_neg (fun h => by rw [hany2] at h; cases h)]
    · rw [map_some_reduceOption _ hnone]

/-- Witness for C1: the wrong-count and not-numeric branches at concrete
inputs, through the theorem. -/
theorem validateAndParseDraw_spec_witness :
    validateAndParseDraw toNumDigits ("1,2".toList)
      = .error (.wrongCount (numbersStrOf ("1,2".toList)).length)
    ∧ validateAndParseDraw toNumDigits ("1,x,3".toList) = .error .notNumeric :=
  ⟨(validateAndParseDraw_spec toNumDigits ("1,2".toList)).2.2.1 (by decide),
   (validateAndParseDraw_spec toNumDigits ("1,x,3".toList)).2.2.2.1 (by decide) (by decide)⟩

/-! ## C7: code-fence stripping -/

lemma greedyStar_cons (p : Char → Bool) (k : List Char → Option (List Char))
    (c : Char) (rest : List Char) :
    greedyStar p k (c :: rest) =
      if p c then
        match greedyStar p k rest with
        | some r => some r
        | none => k (c :: rest)
      else k (c :: rest) := rfl

lemma optChar_cons (ch : Char) (k : List Char → Option (List Char))
    (d : Char) (rest : List Char) :
    optChar ch k (d :: rest) =
      if d = ch then
        match k rest with
        | some r => some r
        | none => k (d :: rest)
      else k (d :: rest) := rfl

lemma lazyGroup_cons (c : Char) (rest : List Char) :
    lazyGroup (c :: rest) =
      if fenceTail (c :: rest) then some []
      else (lazyGroup rest).map (c :: ·) := rfl

lemma fenceTail_of_last (s : List Char) (hne : s ≠ [])
    (hlast : wsJs (s.getLast hne) = false) :
    fenceTail (s ++ '\n' :: '`' :: '`' :: '`' :: []) = false := by
  rw [fenceTail]
  have hlen : (s ++ '\n' :: '`' :: '`' :: '`' :: []).length = s.length + 4 := by simp
  have htake : (s ++ '\n' :: '`' :: '`' :: '`' :: []).take
      ((s ++ '\n' :: '`' :: '`' :: '`' :: []).length - 3) = s ++ ['\n'] := by
    rw [hlen]
    have h1 : s.length + 4 - 3 = s.length + 1 := by omega
    rw [h1]
    have h2 := @List.take_append Char s ('\n' :: '`' :: '`' :: '`' :: []) 1
    simpa using h2
  rw [htake]
  have hall : (s ++ ['\n']).all wsJs = false :=
    List.all_eq_false.2
      ⟨s.getLast hne, List.mem_append_left _ (List.getLast_mem hne), by simp [hlast]⟩
  rw [hall, Bool.and_false]

lemma lazyGroup_append (s : List Char) :
    ∀ (hne : s ≠ []), wsJs (s.getLast hne) = false →
      lazyGroup (s ++ '\n' :: '`' :: '`' :: '`' :: []) = some s := by
  induction s with
  | nil => intro hne; exact absurd rfl hne
  | cons c s' ih =>
    intro hne hlast
    have hfalse : fenceTail (c :: (s' ++ '\n' :: '`' :: '`' :: '`' :: [])) = false :=
      fenceTail_of_last (c :: s') hne hlast
    rw [List.cons_append, lazyGroup_cons, hfalse]
    simp only [Bool.false_eq_true, if_false]
    cases s' with
    | nil =>
      have : lazyGroup ([] ++ '\n' :: '`' :: '`' :: '`' :: []) = some [] := by decide
      rw [this]
      rfl
    | cons d s'' =>
      have hne' : d :: s'' ≠ [] := by simp
      have hlast' : wsJs ((d :: s'').getLast hne') = false := by
        rwa [List.getLast_cons hne'] at hlast
      rw [ih hne' hlast']
      rfl

lemma greedyStar_word_prefix (k : List Char → Option (List Char)) :
    ∀ (label rest : List Char), (∀ c ∈ label, wordJs c = true) →
      ∀ v : List Char, k ('\n' :: rest) = some v →
        greedyStar wordJs k (label ++ '\n' :: rest) = some v := by
  intro label
  induction label with
  | nil =>
    intro rest _ v hk
    rw [List.nil_append, greedyStar_cons, if_neg (by decide), hk]
  | cons c label' ih =>
    intro rest hlabel v hk
    rw [List.cons_append, greedyStar_cons, if_pos (hlabel c (by simp)),
      ih rest (fun a ha => hlabel a (List.mem_cons_of_mem c ha)) v hk]

lemma wsChain_eval (s : List Char) (hne : s ≠ [])
    (hhead : wsJs (s.head hne) = false) (hlast : wsJs (s.getLast hne) = false) :
    greedyStar wsJs (optChar '\n' lazyGroup)
      ('\n' :: (s ++ '\n' :: '`' :: '`' :: '`' :: [])) = some s := by
  cases s with
  | nil => exact absurd rfl hne
  | cons c s' =>
    have hc : wsJs c = false := hhead
    have hcn : ¬ c = '\n' := by
      intro h
      rw [h] at hc
      exact absurd hc (by decide)
    have hlz : lazyGroup ((c :: s') ++ '\n' :: '`' :: '`' :: '`' :: []) = some (c :: s') :=
      lazyGroup_append (c :: s') hne hlast
    have hinner : greedyStar wsJs (optChar '\n' lazyGroup)
        ((c :: s') ++ '\n' :: '`' :: '`' :: '`' :: []) = some (c :: s') := by
      rw [List.cons_append, greedyStar_cons, if_neg (by simp [hc]), optChar_cons,
        if_neg hcn, ← List.cons_append, hlz]
    rw [greedyStar_cons, if_pos (by decide), hinner]

lemma fenceRegexMatch_eval (label : List Char) (hlabel : ∀ c ∈ label, wordJs c = true)
    (s : List Char) (hne : s ≠ [])
    (hhead : wsJs (s.head hne) = false) (hlast : wsJs (s.getLast hne) = false) :
    fenceRegexMatch
      ('`' :: '`' :: '`' :: (label ++ '\n' :: (s ++ '\n' :: '`' :: '`' :: '`' :: [])))
      = some s := by
  have h1 : fenceRegexMatch
      ('`' :: '`' :: '`' :: (label ++ '\n' :: (s ++ '\n' :: '`' :: '`' :: '`' :: [])))
      = greedyStar wordJs (greedyStar wsJs (optChar '\n' lazyGroup))
          (label ++ '\n' :: (s ++ '\n' :: '`' :: '`' :: '`' :: [])) := rfl
  rw [h1]
  exact greedyStar_word_prefix _ label _ hlabel s (wsChain_eval s hne hhead hlast)

lemma dropWhile_length_eq (p : Char → Bool) (l : List Char)
    (h : (l.dropWhile p).length = l.length) : l.dropWhile p = l := by
  cases l with
  | nil => rfl
  | cons c t =>
    rw [List.dropWhile_cons] at h ⊢
    by_cases hc : p c
    · rw [if_pos hc] at h
      have hle := length_dropWhile_le' p t
      rw [List.length_cons] at h
      exact absurd h (by omega)
    · rw [if_neg hc]

lemma head_last_of_trim_eq (s : List Char) (hne : s ≠ []) (htrim : trimJs s = s) :
    wsJs (s.head hne) = false ∧ wsJs (s.getLast hne) = false := by
  have e0 : (trimJs s).length = s.length := by rw [htrim]
  have e1 : (trimJs s).length = (((s.dropWhile wsJs).reverse).dropWhile wsJs).length := by
    rw [trimJs, List.length_reverse]
  have le1 : (((s.dropWhile wsJs).reverse).dropWhile wsJs).length
      ≤ (s.dropWhile wsJs).reverse.length := length_dropWhile_le' _ _
  have le2 : (s.dropWhile wsJs).length ≤ s.length := length_dropWhile_le' _ _
  rw [List.length_reverse] at le1
  have hd1 : s.dropWhile wsJs = s := dropWhile_length_eq _ _ (by omega)
  have hd2 : (s.reverse).dropWhile wsJs = s.reverse := by
    apply dropWhile_length_eq
    rw [hd1] at e1
    rw [List.length_reverse]
    omega
  constructor
  · cases s with
    | nil => exact absurd rfl hne
    | cons c t =>
      by_cases hc : wsJs c
      · exfalso
        rw [List.dropWhile_cons, if_pos hc] at hd1
        have hlen := congrArg List.length hd1
        have hle := length_dropWhile_le' wsJs t
        rw [List.length_cons] at hlen
        omega
      · simpa using hc
  · cases hr : s.reverse with
    | nil =>
      exfalso
      have h2 := congrArg List.reverse hr
      rw [List.reverse_reverse] at h2
      exact hne (by simpa using h2)
    | cons c' t' =>
      rw [hr] at hd2
      have hc' : wsJs c' = false := by
        by_cases hcw : wsJs c'
        · exfalso
          rw [List.dropWhile_cons, if_pos hcw] at hd2
          have hlen := congrArg List.length hd2
          have hle := length_dropWhile_le' wsJs t'
          rw [List.length_cons] at hlen
          omega
        · simpa using hcw
      have hrev_ne : s.reverse ≠ [] := by rw [hr]; simp
      have hh : s.reverse.head hrev_ne = s.getLast hne := List.head_reverse hrev_ne
      have hh2 : s.reverse.head hrev_ne = c' := by
        simp only [hr, List.head_cons]
      rw [← hh, hh2]
      exact hc'

lemma trimJs_of_ends (l : List Char) (hne : l ≠ [])
    (hhead : wsJs (l.head hne) = false) (hlast : wsJs (l.getLast hne) = false) :
    trimJs l = l := by
  have h1 : l.dropWhile wsJs = l := by
    cases l with
    | nil => rfl
    | cons c t =>
      rw [List.dropWhile_cons, if_neg (by simp [show wsJs c = false from hhead])]
  have h2 : l.reverse.dropWhile wsJs = l.reverse := by
    cases hr : l.reverse with
    | nil => rfl
    | cons c t =>
      have hrev_ne : l.reverse ≠ [] := by rw [hr]; simp
      have hh : l.reverse.head hrev_ne = l.getLast hne := List.head_reverse hrev_ne
      have hh2 : l.reverse.head hrev_ne = c := by
        simp only [hr, List.head_cons]
      have hc : wsJs c = false := by
        rw [← hh2, hh]
        exact hlast
      rw [List.dropWhile_cons, if_neg (by simp [hc])]
  rw [trimJs, h1, h2, List.reverse_reverse]

/-- **C7.** For every non-empty JSON text `s` (no surrounding whitespace of
its own — a serialized JSON value), the response-normalization step maps
the fenced form  ```` ```json\n<s>\n``` ````  and the unlabelled form
```` ```\n<s>\n``` ````  to `s` itself, so a fenced response is parsed
identically to the unwrapped response (which normalization also maps to
`s`, as the fence regex does not match it — third conjunct, under the
premise that `s` does not itself open with a backtick fence, which no JSON
value's serialization does). -/
theorem normalizeResponse_fence_spec (s : List Char) (hne : s ≠ [])
    (htrim : trimJs s = s) :
    normalizeResponse ("```json\n".toList ++ (s ++ "\n```".toList)) = s
    ∧ normalizeResponse ("```\n".toList ++ (s ++ "\n```".toList)) = s
    ∧ (fenceRegexMatch s = none → normalizeResponse s = s) := by
  obtain ⟨hhead, hlast⟩ := head_last_of_trim_eq s hne htrim
  refine ⟨?_, ?_, ?_⟩
  · have hmatch : fenceRegexMatch ("```json\n".toList ++ (s ++ "\n```".toList))
        = some s :=
      fenceRegexMatch_eval ['j', 's', 'o', 'n'] (by decide) s hne hhead hlast
    have hT : trimJs ("```json\n".toList ++ (s ++ "\n```".toList))
        = "```json\n".toList ++ (s ++ "\n```".toList) := by
      apply trimJs_of_ends _ (by simp)
      · exact (by decide : wsJs '`' = false)
      · have hgl : ("```json\n".toList ++ (s ++ "\n```".toList)).getLast (by simp)
            = '`' := by
          rw [List.getLast_append, dif_neg (by simp)]
          rw [List.getLast_append, dif_neg (by simp)]
          decide
        rw [hgl]
        decide
    simp only [normalizeResponse]
    rw [hT, hmatch]
    simp [hne, htrim]
  · have hmatch : fenceRegexMatch ("```\n".toList ++ (s ++ "\n```".toList))
        = some s :=
      fenceRegexMatch_eval [] (by decide) s hne hhead hlast
    have hT : trimJs ("```\n".toList ++ (s ++ "\n```".toList))
        = "```\n".toList ++ (s ++ "\n```".toList) := by
      apply trimJs_of_ends _ (by simp)
      · exact (by decide : wsJs '`' = false)
      · have hgl : ("```\n".toList ++ (s ++ "\n```".toList)).getLast (by simp)
            = '`' := by
          rw [List.getLast_append, dif_neg (by simp)]
          rw [List.getLast_append, dif_neg (by simp)]
          decide
        rw [hgl]
        decide
    simp only [normalizeResponse]
    rw [hT, hmatch]
    simp [hne, htrim]
  · intro hnomatch
    simp only [normalizeResponse]
    rw [htrim, hnomatch]

/-- Witness for C7: the fenced form of the concrete response text is mapped
back to it, via the theorem. -/
theorem normalizeResponse_fence_spec_witness :
    normalizeResponse ("```json\n".toList ++ ("{}".toList ++ "\n```".toList))
      = "{}".toList :=
  (normalizeResponse_fence_spec ("{}".toList) (by decide) (by decide)).1
